import Mathlib

/-!
Verification of the core srt-processing engine of `subnuker.py`.

Python strings are modeled as Lean `String` (a structure around `List Char`);
the Python builtins used by the code (`str.split`, `str.splitlines`,
`str.join`, `str.endswith`, `in`, `str.translate`, `str`/decimal rendering)
are embedded as structurally recursive functions over `List Char`, so every
definition evaluates by `rfl`/`decide`.
-/

namespace Subnuker

/-- The characters Python `str.splitlines` treats as line boundaries
(LF, CR, VT, FF, FS, GS, RS, NEL, LINE SEPARATOR, PARAGRAPH SEPARATOR);
CRLF is handled as a single boundary by `splitlinesGo`. -/
def isLineBreakChar (c : Char) : Bool :=
  c = '\n' || c = '\r' || c = '\x0b' || c = '\x0c' ||
  c = '\x1c' || c = '\x1d' || c = '\x1e' || c = '\x85' ||
  c = '\u2028' || c = '\u2029'

/-- Does the second list start with the first list?  (Used to model substring
search, scanning left to right.) -/
def startsWithSeq : List Char → List Char → Bool
  | [], _ => true
  | _ :: _, [] => false
  | a :: as, b :: bs => a == b && startsWithSeq as bs

/-- Python's substring containment `sep in s` (also the truth value of
`re.search(sep, s)` for a pattern without metacharacters, as in
`SrtProject.split`): does `sep` occur contiguously in `s`?
Note `"" in s` is `True` in Python. -/
def containsSeq (sep : List Char) : List Char → Bool
  | [] => sep.isEmpty
  | c :: rest => startsWithSeq sep (c :: rest) || containsSeq sep rest

/-- Python `str.split("\n\n")`: cut at each leftmost non-overlapping
occurrence of the two-character separator.  `acc` holds the (reversed)
characters of the chunk currently being scanned. -/
def splitNN (acc : List Char) : List Char → List (List Char)
  | [] => [acc.reverse]
  | [c] => [(c :: acc).reverse]
  | c :: d :: rest =>
    if c = '\n' && d = '\n' then acc.reverse :: splitNN [] rest
    else splitNN (c :: acc) (d :: rest)

/-- Python `str.split("\r\n\r\n")`, same scheme with a four-character
separator. -/
def splitRNRN (acc : List Char) : List Char → List (List Char)
  | [] => [acc.reverse]
  | [c] => [(c :: acc).reverse]
  | [c, d] => [(d :: c :: acc).reverse]
  | [c, d, e] => [(e :: d :: c :: acc).reverse]
  | c :: d :: e :: f :: rest =>
    if c = '\r' && d = '\n' && e = '\r' && f = '\n' then
      acc.reverse :: splitRNRN [] rest
    else splitRNRN (c :: acc) (d :: e :: f :: rest)

/-- Python `str.splitlines`: split at every line boundary (CRLF counting as
one), never producing a trailing empty line for a final boundary. -/
def splitlinesGo (acc : List Char) : List Char → List String
  | [] => if acc.isEmpty then [] else [String.mk acc.reverse]
  | [c] =>
    if isLineBreakChar c then [String.mk acc.reverse]
    else [String.mk (c :: acc).reverse]
  | c :: d :: rest =>
    if c = '\r' && d = '\n' then String.mk acc.reverse :: splitlinesGo [] rest
    else if isLineBreakChar c then String.mk acc.reverse :: splitlinesGo [] (d :: rest)
    else splitlinesGo (c :: acc) (d :: rest)

/-- Python `cell.splitlines()`. -/
def pySplitlines (s : String) : List String := splitlinesGo [] s.toList

/-- Python `sep.join(parts)` at the character-list level. -/
def joinChars (sep : List Char) : List (List Char) → List Char
  | [] => []
  | [x] => x
  | x :: y :: xs => x ++ sep ++ joinChars sep (y :: xs)

/-- Python `sep.join(parts)`. -/
def pyJoin (sep : String) (parts : List String) : String :=
  String.mk (joinChars sep.toList (parts.map String.toList))

/-- Python `s.endswith('\n')`. -/
def pyEndsWithNL (s : String) : Bool := s.toList.getLast? == some '\n'

/-- Decimal digit characters of `n`, accumulator style (fuel is `n+1`,
always sufficient since a number has at most `n+1` digits). -/
def natToCharsAux : Nat → Nat → List Char → List Char
  | 0, _, acc => acc
  | fuel + 1, n, acc =>
    let d := Char.ofNat (48 + n % 10)
    if n < 10 then d :: acc else natToCharsAux fuel (n / 10) (d :: acc)

/-- Python `str(n)` for a natural number: its decimal digits. -/
def natToChars (n : Nat) : List Char := natToCharsAux (n + 1) n []

/-- Python `str.lower()` applied to the single character read by `getch`
(ASCII-faithful, which covers the `y`/`n` protocol of `prompt`). -/
def pyLower (c : Char) : Char := c.toLower

example : splitNN [] "a\n\nb\n\n".toList = ["a".toList, "b".toList, []] := by decide
example : splitlinesGo [] "a\r\nb\r".toList = ["a", "b"] := by decide
example : splitlinesGo [] "x\r\n\r".toList = ["x", ""] := by decide
example : natToChars 210 = ['2', '1', '0'] := by decide
example : containsSeq "\n\n".toList "\r\n\r\n".toList = false := by decide

/-- A configured pattern: `subnuker` keeps either plain strings or compiled
regexes in `Config.patterns`; `ismatch` distinguishes them by probing for a
`search` attribute.  We model the two kinds as a tagged variant, a compiled
regex being abstracted by the boolean result of its unanchored `search`. -/
inductive Pattern where
  | lit (s : String)
  | regex (search : String → Bool)

/-- `ismatch(text, pattern)` (module function, used as a truth value):
regex objects use `pattern.search(text)`, strings use `pattern in text`. -/
def ismatch (text : String) (p : Pattern) : Bool :=
  match p with
  | .lit s => containsSeq s.toList text.toList
  | .regex f => f text

/-- The inner loop of `SrtProject.search`: try the patterns in configured
order against one cell, stopping at the first match (`break`). -/
def cellMatches (patterns : List Pattern) (cell : String) : Bool :=
  match patterns with
  | [] => false
  | p :: rest => if ismatch cell p then true else cellMatches rest cell

/-- The outer loop of `SrtProject.search`: `for index, cell in
enumerate(self.cells)`, recording `index` whenever some pattern matches. -/
def searchGo (patterns : List Pattern) : Nat → List String → List Nat
  | _, [] => []
  | i, c :: rest =>
    (if cellMatches patterns c then [i] else []) ++ searchGo patterns (i + 1) rest

/-- `SrtProject.search`: the list of indices of cells matching some
pattern. -/
def search (cells : List String) (patterns : List Pattern) : List Nat :=
  searchGo patterns 0 cells

/-- Result of `SrtProject.prompt`: either the list of confirmed deletions, or
an abort (`sys.exit(0)`), which ends the whole program without applying or
saving anything; `warned` records whether the discarded-changes warning was
logged first. -/
inductive PromptOutcome where
  | deletions (ds : List Nat)
  | abort (warned : Bool)
deriving DecidableEq

/-- The interactive loop of `SrtProject.prompt`.  `resp` is the stream of
keystrokes returned by `getch` (blocking, so always available), `k` the
number of keystrokes consumed so far, `acc` the deletions gathered so far.
A lowercased response `y` confirms, `n` skips, anything else logs the
warning when `acc` is nonempty or the file was already modified, then
exits. -/
def promptGo (modified : Bool) (resp : Nat → Char) : List Nat → Nat → List Nat → PromptOutcome
  | [], _, acc => .deletions acc
  | m :: ms, k, acc =>
    let r := pyLower (resp k)
    if r = 'y' then promptGo modified resp ms (k + 1) (acc ++ [m])
    else if r = 'n' then promptGo modified resp ms (k + 1) acc
    else .abort (!acc.isEmpty || modified)

/-- `SrtProject.prompt`: with `--yes` the matches are returned unchanged and
no interaction happens; otherwise each match is reviewed in turn. -/
def prompt (autoyes modified : Bool) (resp : Nat → Char) (matched : List Nat) : PromptOutcome :=
  if autoyes then .deletions matched else promptGo modified resp matched 0 []

/-- The generator body of `SrtProject.renumber` with `num` the running
counter: a cell splitting into at least two lines gets `str(num)` as its
new first line and is yielded re-joined with `'\n'`; any other cell is
passed over (neither numbered nor yielded). -/
def renumberGo (num : Nat) : List String → List String
  | [] => []
  | c :: rest =>
    let ls := pySplitlines c
    if 2 ≤ ls.length then
      pyJoin "\n" (String.mk (natToChars (num + 1)) :: ls.tail) :: renumberGo (num + 1) rest
    else renumberGo num rest

/-- `list(self.renumber())` as used by `SrtProject.save`. -/
def renumberList (cells : List String) : List String := renumberGo 0 cells

/-- `SrtProject.save` up to the file write: renumber, ensure a final
newline, and join the cells with a blank line.  `none` models the
`IndexError` raised by `self.cells[-1]` when the renumbered list is empty;
the caller catches it (`except:` in `__init__`) and reports a save
failure, so nothing is written in that case. -/
def saveText (cells : List String) : Option String :=
  let renumbered := renumberList cells
  match renumbered.getLast? with
  | none => none
  | some last =>
    let final := if pyEndsWithNL last then renumbered
                 else renumbered.dropLast ++ [last ++ "\n"]
    some (pyJoin "\n\n" final)

/-- `SrtProject.split`: prefer `"\n\n"` as the cell delimiter, then
`"\r\n\r\n"`; `none` models the fatal `sys.exit(1)` ("does not appear to be
a 'srt' subtitle file") when neither occurs. -/
def splitText (text : String) : Option (List String) :=
  if containsSeq "\n\n".toList text.toList then
    some ((splitNN [] text.toList).map String.mk)
  else if containsSeq "\r\n\r\n".toList text.toList then
    some ((splitRNRN [] text.toList).map String.mk)
  else none

/-- `remove_elements(target, indices)` (module function): copy the list,
then `del copied[index]` for each index in reversed order.  `List.eraseIdx`
is Python's in-range `del`; the Python version raises `IndexError` out of
range, a case no theorem below exercises. -/
def remove_elements (target : List String) (indices : List Nat) : List String :=
  (indices.reverse).foldl (fun copied index => copied.eraseIdx index) target

/-- `SrtProject.fixchars`' `text.translate(str.maketrans(keys, values))`:
one-pass transliteration of each character through the (duplicate-free)
`Config.CHARFIXES` table. -/
def pyTranslate (fixes : List (Char × Char)) (s : String) : String :=
  String.mk (s.toList.map (fun c => ((fixes.lookup c).getD c)))

/-- Outcome of Python `binary.decode(encoding)` for a named encoding:
success, `LookupError` (unknown codec name), or `UnicodeDecodeError`
(bytes invalid for that codec). -/
inductive DecodeAsResult where
  | ok (s : String)
  | lookupError
  | unicodeError
deriving DecidableEq

/-- The Python text-codec and chardet primitives that `SrtProject.open` and
`get_encoding` call, abstracted as an oracle: `utf8Strict` is
`binary.decode()` (`none` = `UnicodeDecodeError`), `decodeAs` is
`binary.decode(name)`, `utf8Ignore` is `binary.decode(errors='ignore')`
(total), and `detect` is `chardet.detect(binary).get('encoding')` (`none`
when detection fails). -/
structure PyCodec where
  utf8Strict : List Nat → Option String
  decodeAs : String → List Nat → DecodeAsResult
  utf8Ignore : List Nat → String
  detect : List Nat → Option String

/-- `get_encoding(binary)` (module function): the detected encoding name,
with the known-wrong `CP949` label remapped to `iso-8859-1`.  The Python
function returns `None` when `chardet` yields no encoding. -/
def get_encoding (pc : PyCodec) (binary : List Nat) : Option String :=
  (pc.detect binary).map (fun e => if e = "CP949" then "iso-8859-1" else e)

/-- Result of `SrtProject.open`: decoded text, or a fatal exit.  `fatal`
covers `open_error` (`sys.exit(1)`) reached from the bare `except:`
clauses. -/
inductive OpenOutcome where
  | text (s : String)
  | fatal
deriving DecidableEq

/-- `SrtProject.open` after the raw bytes are read: strict UTF-8 first; on
`UnicodeDecodeError`, decode with the detected encoding, where only
`LookupError` falls back to the lossy decode — a detection result of `None`
makes `binary.decode(None)` raise `TypeError`, and a second
`UnicodeDecodeError` is also only caught by the bare `except:`; both run
`open_error`, which exits. -/
def SrtProject.open (pc : PyCodec) (binary : List Nat) : OpenOutcome :=
  match pc.utf8Strict binary with
  | some s => .text s
  | none =>
    match get_encoding pc binary with
    | none => .fatal
    | some enc =>
      match pc.decodeAs enc binary with
      | .ok s => .text s
      | .lookupError => .text (pc.utf8Ignore binary)
      | .unicodeError => .fatal

/-- The observable result of one completed `SrtProject` run: the content
written to the file (`none` when nothing was written, either because the
file was unmodified or because `save` raised), the `modified` flag, whether
`fixchars` changed the text, the applied deletions, and whether
`Config.results` was set. -/
structure RunDone where
  written : Option String
  modified : Bool
  fixChanged : Bool
  deleted : List Nat
  resultsFlag : Bool
deriving DecidableEq

/-- Result of processing one file in `SrtProject.__init__` (after `open`):
fatal format error from `split`, program abort from `prompt`, or normal
completion. -/
inductive RunOutcome where
  | formatError
  | aborted (warned : Bool)
  | done (d : RunDone)
deriving DecidableEq

/-- `SrtProject.__init__` from the decoded text onwards: fix characters
(when the table is nonempty), split into cells, search, prompt, delete,
and save when modified; the `try`/`except` around `save` turns a save
failure into a logged error with nothing written. -/
def SrtProject.run (charfixes : List (Char × Char)) (patterns : List Pattern)
    (autoyes : Bool) (resp : Nat → Char) (text0 : String) : RunOutcome :=
  let text := if charfixes.isEmpty then text0 else pyTranslate charfixes text0
  let fixChanged := !charfixes.isEmpty && text != text0
  match splitText text with
  | none => .formatError
  | some cells =>
    let matched := search cells patterns
    if matched.isEmpty then
      .done ⟨if fixChanged then saveText cells else none, fixChanged, fixChanged, [], false⟩
    else
      match prompt autoyes fixChanged resp matched with
      | .abort w => .aborted w
      | .deletions ds =>
        if ds.isEmpty then
          .done ⟨if fixChanged then saveText cells else none, fixChanged, fixChanged, [], true⟩
        else
          .done ⟨saveText (remove_elements cells ds), true, fixChanged, ds, true⟩

example : saveText ["1\nHello", "orphan"] = some "1\nHello\n" := by decide
example : remove_elements ["a", "b", "c"] [1, 0] = ["b"] := by decide
example : renumberList ["9\nx\r\ny", "zzz", "8\nu\nv"] = ["1\nx\ny", "2\nu\nv"] := by decide
example :
    SrtProject.run [('¶', '♪')] [.lit "hello"] true (fun _ => 'y') "hello\n\nbye" =
      .done ⟨none, true, false, [0], true⟩ := by decide

/-- A cell "with at least two lines" in the sense of `SrtProject.renumber`. -/
def isMultiLine (c : String) : Bool := 2 ≤ (pySplitlines c).length

/-- What `renumber` does to a kept cell: replace its first line by the
decimal rendering of `n` and re-join with `'\n'`. -/
def setFirstLine (n : Nat) (c : String) : String :=
  pyJoin "\n" (String.mk (natToChars n) :: (pySplitlines c).tail)

/-- Specification-side renumbering: number the given cells consecutively
starting at `n`. -/
def numberFrom (n : Nat) : List String → List String
  | [] => []
  | c :: rest => setFirstLine n c :: numberFrom (n + 1) rest

theorem renumberGo_eq_numberFrom (num : Nat) (cells : List String) :
    renumberGo num cells = numberFrom (num + 1) (cells.filter isMultiLine) := by
  induction cells generalizing num with
  | nil => rfl
  | cons c rest ih =>
    by_cases h : 2 ≤ (pySplitlines c).length
    · simp [renumberGo, List.filter_cons, isMultiLine, h, numberFrom, setFirstLine, ih]
    · simp [renumberGo, List.filter_cons, isMultiLine, h, ih]

/-- C1: counterexample.  The claim says a cell with fewer than two lines
"is skipped from numbering but still retained in the serialized output".
In `SrtProject.renumber` the `yield` sits inside `if len(cell_split) >= 2`,
so such a cell is dropped: serializing `["1\nHello", "orphan"]` loses the
single-line cell `"orphan"` entirely. -/
theorem C1_counterexample :
    renumberList ["1\nHello", "orphan"] = ["1\nHello"] ∧
      saveText ["1\nHello", "orphan"] = some "1\nHello\n" ∧
      containsSeq "orphan".toList "1\nHello\n".toList = false := by decide

/-- C1 (amended): the renumber-and-serialize step keeps exactly the cells
with at least two lines, in order, and replaces the first line of the k-th
kept cell by the decimal rendering of k (1-based, counted among kept cells
only); cells with fewer than two lines are skipped from numbering and are
dropped from the output. -/
theorem C1_amended_renumber (cells : List String) :
    renumberList cells = numberFrom 1 (cells.filter isMultiLine) :=
  renumberGo_eq_numberFrom 0 cells

/-- C9: `save` first materializes `list(self.renumber())`; when that list is
empty, the access `self.cells[-1]` raises `IndexError` (modeled by `none`),
so nothing is written for that file — the `except:` in `__init__` catches it
and logs the save failure.  Conversely a nonempty renumbered list always
produces output text. -/
theorem C9_save_fails_iff_renumber_empty (cells : List String) :
    saveText cells = none ↔ renumberList cells = [] := by
  cases h : (renumberList cells).getLast? with
  | none =>
    have hnil : renumberList cells = [] := List.getLast?_eq_none_iff.mp h
    simp [saveText, h, hnil]
  | some last =>
    have hne : renumberList cells ≠ [] := by
      intro hnil
      rw [hnil] at h
      exact Option.noConfusion h
    simp [saveText, h, hne]

theorem splitlinesGo_chars (acc s : List Char) :
    (∀ a ∈ acc, isLineBreakChar a = false) →
      ∀ l ∈ splitlinesGo acc s, ∀ ch ∈ l.toList, isLineBreakChar ch = false := by
  induction acc, s using splitlinesGo.induct with
  | case1 acc he =>
    intro hacc l hl ch hch
    simp [splitlinesGo, he] at hl
  | case2 acc he =>
    intro hacc l hl ch hch
    simp [splitlinesGo, he] at hl
    subst hl
    replace hch : ch ∈ acc.reverse := hch
    exact hacc ch (List.mem_reverse.mp hch)
  | case3 acc c hbk =>
    intro hacc l hl ch hch
    simp [splitlinesGo, hbk] at hl
    subst hl
    replace hch : ch ∈ acc.reverse := hch
    exact hacc ch (List.mem_reverse.mp hch)
  | case4 acc c hbk =>
    intro hacc l hl ch hch
    simp [splitlinesGo, hbk] at hl
    subst hl
    replace hch : ch ∈ acc.reverse ++ [c] := hch
    rcases List.mem_append.mp hch with h | h
    · exact hacc ch (List.mem_reverse.mp h)
    · rw [List.mem_singleton.mp h]
      simpa using hbk
  | case5 acc c d rest hcd ih =>
    intro hacc l hl ch hch
    simp only [splitlinesGo, if_pos hcd, List.mem_cons] at hl
    rcases hl with hl | hl
    · subst hl
      replace hch : ch ∈ acc.reverse := hch
      exact hacc ch (List.mem_reverse.mp hch)
    · exact ih (by simp) l hl ch hch
  | case6 acc c d rest hcd hbk ih =>
    intro hacc l hl ch hch
    simp only [splitlinesGo, if_neg hcd, if_pos hbk, List.mem_cons] at hl
    rcases hl with hl | hl
    · subst hl
      replace hch : ch ∈ acc.reverse := hch
      exact hacc ch (List.mem_reverse.mp hch)
    · exact ih (by simp) l hl ch hch
  | case7 acc c d rest hcd hbk ih =>
    intro hacc l hl ch hch
    simp only [splitlinesGo, if_neg hcd, if_neg hbk] at hl
    refine ih ?_ l hl ch hch
    intro a ha
    rcases List.mem_cons.mp ha with h | h
    · subst h
      simpa using hbk
    · exact hacc a h

theorem isLineBreakChar_digit (m : Nat) :
    isLineBreakChar (Char.ofNat (48 + m % 10)) = false := by
  have h : m % 10 < 10 := Nat.mod_lt _ (by omega)
  set k := m % 10 with hk
  interval_cases k <;> decide

theorem natToCharsAux_chars (fuel n : Nat) (acc : List Char)
    (hacc : ∀ a ∈ acc, isLineBreakChar a = false) :
    ∀ ch ∈ natToCharsAux fuel n acc, isLineBreakChar ch = false := by
  induction fuel generalizing n acc with
  | zero => exact hacc
  | succ fuel ih =>
    intro ch hch
    simp only [natToCharsAux] at hch
    by_cases h : n < 10
    · rw [if_pos h] at hch
      rcases List.mem_cons.mp hch with h' | h'
      · rw [h']
        exact isLineBreakChar_digit n
      · exact hacc ch h'
    · rw [if_neg h] at hch
      refine ih (n / 10) _ ?_ ch hch
      intro a ha
      rcases List.mem_cons.mp ha with h' | h'
      · rw [h']
        exact isLineBreakChar_digit n
      · exact hacc a h'

theorem natToChars_chars (n : Nat) :
    ∀ ch ∈ natToChars n, isLineBreakChar ch = false :=
  natToCharsAux_chars (n + 1) n [] (by simp)

theorem mem_joinChars (sep : List Char) (parts : List (List Char)) (ch : Char)
    (h : ch ∈ joinChars sep parts) : (∃ p ∈ parts, ch ∈ p) ∨ ch ∈ sep := by
  induction parts with
  | nil => simp [joinChars] at h
  | cons x xs ih =>
    cases xs with
    | nil =>
      simp only [joinChars] at h
      exact Or.inl ⟨x, by simp, h⟩
    | cons y ys =>
      simp only [joinChars, List.append_assoc, List.mem_append] at h
      rcases h with h | h | h
      · exact Or.inl ⟨x, by simp, h⟩
      · exact Or.inr h
      · rcases ih h with ⟨p, hp, hcp⟩ | h'
        · exact Or.inl ⟨p, List.mem_cons_of_mem _ hp, hcp⟩
        · exact Or.inr h'

theorem mem_renumberGo (num : Nat) (cells : List String) (c : String)
    (hc : c ∈ renumberGo num cells) :
    ∃ n cell, cell ∈ cells ∧
      c = pyJoin "\n" (String.mk (natToChars n) :: (pySplitlines cell).tail) := by
  induction cells generalizing num with
  | nil => simp [renumberGo] at hc
  | cons cell rest ih =>
    simp only [renumberGo] at hc
    by_cases h : 2 ≤ (pySplitlines cell).length
    · rw [if_pos h] at hc
      rcases List.mem_cons.mp hc with h' | h'
      · exact ⟨num + 1, cell, by simp, h'⟩
      · rcases ih _ h' with ⟨n, cl, hcl, heq⟩
        exact ⟨n, cl, List.mem_cons_of_mem _ hcl, heq⟩
    · rw [if_neg h] at hc
      rcases ih _ hc with ⟨n, cl, hcl, heq⟩
      exact ⟨n, cl, List.mem_cons_of_mem _ hcl, heq⟩

/-- C10: counterexample.  The claim that "no renumbered cell ends with a
line break" fails: the cell `"x\r\n\r"` splits into the lines
`["x", ""]`, is kept (two lines) and renumbered to `"1\n"`, which ends with
a line break. -/
theorem C10_counterexample :
    renumberList ["x\r\n\r"] = ["1\n"] ∧ pyEndsWithNL "1\n" = true := by decide

/-- C10 (amended): renumbering splits each kept cell into lines and rejoins
them with `'\n'`, so every line-break character occurring in a renumbered
cell is `'\n'` — in particular `"\r\n"` breaks are converted and the
serialized output is LF-normalized.  However a renumbered cell can still
end with `'\n'` (exactly when the cell's line split ends with an empty
line, e.g. a cell ending in `"\r\n\r"`), so the no-trailing-line-break part
of the claim is dropped. -/
theorem C10_amended_lf_normalized (cells : List String) (c : String)
    (hc : c ∈ renumberList cells) :
    ∀ ch ∈ c.toList, isLineBreakChar ch = true → ch = '\n' := by
  intro ch hch hbk
  rcases mem_renumberGo 0 cells c hc with ⟨n, cell, _, rfl⟩
  replace hch : ch ∈ joinChars ['\n']
      ((String.mk (natToChars n) :: (pySplitlines cell).tail).map String.toList) := hch
  rcases mem_joinChars _ _ _ hch with ⟨p, hp, hcp⟩ | h
  · rcases List.mem_map.mp hp with ⟨l, hl, rfl⟩
    rcases List.mem_cons.mp hl with h' | h'
    · subst h'
      replace hcp : ch ∈ natToChars n := hcp
      rw [natToChars_chars n ch hcp] at hbk
      cases hbk
    · have : ∀ a ∈ l.toList, isLineBreakChar a = false :=
        splitlinesGo_chars [] cell.toList (by simp) l (List.mem_of_mem_tail h')
      rw [this ch hcp] at hbk
      cases hbk
  · simpa using h

/-- C10 witness: the amended theorem applied to the concrete cell list
`["a\r\nb"]`, whose renumbered form is `["1\nb"]`. -/
theorem C10_witness :
    renumberList ["a\r\nb"] = ["1\nb"] ∧ '\n' = '\n' :=
  ⟨by decide,
   C10_amended_lf_normalized ["a\r\nb"] "1\nb" (by decide) '\n' (by decide) (by decide)⟩

/-- The claim's specification of deletion: keep exactly the cells whose
index is not in the index set, in index order. -/
def keepSpec (target : List String) (indices : List Nat) : List String :=
  (List.range target.length).filterMap
    (fun i => if i ∈ indices then none else target[i]?)

theorem remove_elements_eq_foldr (target : List String) (indices : List Nat) :
    remove_elements target indices =
      indices.foldr (fun i acc => acc.eraseIdx i) target := by
  simp [remove_elements, List.foldl_reverse]

theorem foldr_erase_shift (a : String) (t : List String) (is : List Nat) :
    (is.map (· + 1)).foldr (fun i acc => acc.eraseIdx i) (a :: t) =
      a :: is.foldr (fun i acc => acc.eraseIdx i) t := by
  induction is with
  | nil => rfl
  | cons i rest ih => simp [ih, List.eraseIdx_cons_succ]

theorem map_sub_one_add_one (is : List Nat) (h : ∀ i ∈ is, 1 ≤ i) :
    (is.map (· - 1)).map (· + 1) = is := by
  induction is with
  | nil => rfl
  | cons i rest ih =>
    have h1 := h i (by simp)
    simp only [List.map_cons]
    rw [ih (fun j hj => h j (List.mem_cons_of_mem _ hj))]
    congr 1
    omega

theorem mem_map_sub_one (rest : List Nat) (j : Nat) (h : ∀ x ∈ rest, 1 ≤ x) :
    j ∈ rest.map (· - 1) ↔ j + 1 ∈ rest := by
  simp only [List.mem_map]
  constructor
  · rintro ⟨x, hx, rfl⟩
    have h1 := h x hx
    have hx1 : x - 1 + 1 = x := by omega
    rw [hx1]
    exact hx
  · intro hj
    exact ⟨j + 1, hj, by omega⟩

theorem filterMap_getElem_range (t : List String) :
    (List.range t.length).filterMap (fun i => t[i]?) = t := by
  induction t with
  | nil => rfl
  | cons a t ih =>
    rw [List.length_cons, List.range_succ_eq_map, List.filterMap_cons,
      List.filterMap_map]
    simp only [List.getElem?_cons_zero]
    rw [show ((fun i => (a :: t)[i]?) ∘ Nat.succ) = (fun i => t[i]?) from by
      funext i; simp]
    rw [ih]

theorem keepSpec_cons_zero (a : String) (t : List String) (rest : List Nat)
    (hpos : ∀ x ∈ rest, 1 ≤ x) :
    keepSpec (a :: t) (0 :: rest) = keepSpec t (rest.map (· - 1)) := by
  simp only [keepSpec, List.length_cons, List.range_succ_eq_map,
    List.filterMap_cons, List.filterMap_map]
  rw [if_pos (by simp)]
  have hfun : ((fun i => if i ∈ 0 :: rest then none else (a :: t)[i]?) ∘ Nat.succ) =
      (fun j => if j ∈ rest.map (· - 1) then none else t[j]?) := by
    funext j
    simp only [Function.comp_apply, List.getElem?_cons_succ]
    by_cases hj : j + 1 ∈ rest
    · rw [if_pos (List.mem_cons_of_mem _ hj),
        if_pos ((mem_map_sub_one rest j hpos).mpr hj)]
    · rw [if_neg (fun hc => by
          rcases List.mem_cons.mp hc with h0 | hm
          · exact Nat.succ_ne_zero j h0
          · exact hj hm),
        if_neg (fun hc => hj ((mem_map_sub_one rest j hpos).mp hc))]
  rw [hfun]

theorem keepSpec_cons_pos (a : String) (t : List String) (is : List Nat)
    (hpos : ∀ x ∈ is, 1 ≤ x) :
    keepSpec (a :: t) is = a :: keepSpec t (is.map (· - 1)) := by
  simp only [keepSpec, List.length_cons, List.range_succ_eq_map,
    List.filterMap_cons, List.filterMap_map]
  rw [if_neg (fun hc => by have := hpos 0 hc; omega)]
  simp only [List.getElem?_cons_zero]
  have hfun : ((fun i => if i ∈ is then none else (a :: t)[i]?) ∘ Nat.succ) =
      (fun j => if j ∈ is.map (· - 1) then none else t[j]?) := by
    funext j
    simp only [Function.comp_apply, List.getElem?_cons_succ]
    by_cases hj : j + 1 ∈ is
    · rw [if_pos hj, if_pos ((mem_map_sub_one is j hpos).mpr hj)]
    · rw [if_neg hj, if_neg (fun hc => hj ((mem_map_sub_one is j hpos).mp hc))]
  rw [hfun]

theorem foldr_erase_eq_keepSpec (target : List String) (indices : List Nat)
    (hsorted : indices.Pairwise (· < ·))
    (hbound : ∀ i ∈ indices, i < target.length) :
    indices.foldr (fun i acc => acc.eraseIdx i) target = keepSpec target indices := by
  induction target generalizing indices with
  | nil =>
    cases indices with
    | nil => rfl
    | cons i rest => exact absurd (hbound i (by simp)) (by simp)
  | cons a t ih =>
    cases indices with
    | nil =>
      simp only [List.foldr_nil, keepSpec]
      rw [show (fun i => if i ∈ ([] : List Nat) then none else (a :: t)[i]?) =
        (fun i => (a :: t)[i]?) from by funext i; simp]
      exact (filterMap_getElem_range (a :: t)).symm
    | cons i rest =>
      have hrest_pos : ∀ x ∈ rest, i < x := fun x hx =>
        (List.pairwise_cons.mp hsorted).1 x hx
      have hsorted_rest : rest.Pairwise (· < ·) := (List.pairwise_cons.mp hsorted).2
      cases i with
      | zero =>
        have hpos : ∀ x ∈ rest, 1 ≤ x := fun x hx => hrest_pos x hx
        have hmap : (rest.map (· - 1)).map (· + 1) = rest :=
          map_sub_one_add_one rest hpos
        have hfold : rest.foldr (fun i acc => acc.eraseIdx i) (a :: t) =
            a :: (rest.map (· - 1)).foldr (fun i acc => acc.eraseIdx i) t := by
          conv_lhs => rw [← hmap]
          exact foldr_erase_shift a t (rest.map (· - 1))
        rw [List.foldr_cons, hfold, List.eraseIdx_cons_zero]
        have hsorted' : (rest.map (· - 1)).Pairwise (· < ·) := by
          rw [List.pairwise_map]
          refine hsorted_rest.imp_of_mem ?_
          intro x y hx hy hxy
          have := hpos x hx
          omega
        have hbound' : ∀ j ∈ rest.map (· - 1), j < t.length := by
          intro j hj
          have hmem : j + 1 ∈ rest := (mem_map_sub_one rest j hpos).mp hj
          have := hbound (j + 1) (List.mem_cons_of_mem _ hmem)
          simpa using this
        rw [ih _ hsorted' hbound', keepSpec_cons_zero a t rest hpos]
      | succ i' =>
        have hpos : ∀ x ∈ (i' + 1) :: rest, 1 ≤ x := by
          intro x hx
          rcases List.mem_cons.mp hx with h | h
          · omega
          · have := hrest_pos x h
            omega
        have hmap : (((i' + 1) :: rest).map (· - 1)).map (· + 1) = (i' + 1) :: rest :=
          map_sub_one_add_one _ hpos
        have hfold : ((i' + 1) :: rest).foldr (fun i acc => acc.eraseIdx i) (a :: t) =
            a :: (((i' + 1) :: rest).map (· - 1)).foldr (fun i acc => acc.eraseIdx i) t := by
          conv_lhs => rw [← hmap]
          exact foldr_erase_shift a t _
        rw [hfold]
        have hsorted' : (((i' + 1) :: rest).map (· - 1)).Pairwise (· < ·) := by
          rw [List.pairwise_map]
          refine hsorted.imp_of_mem ?_
          intro x y hx hy hxy
          have := hpos x hx
          omega
        have hbound' : ∀ j ∈ ((i' + 1) :: rest).map (· - 1), j < t.length := by
          intro j hj
          have hmem : j + 1 ∈ (i' + 1) :: rest := (mem_map_sub_one _ j hpos).mp hj
          have := hbound (j + 1) hmem
          simpa using this
        rw [ih _ hsorted' hbound', keepSpec_cons_pos a t _ hpos]

/-- C7: counterexample.  The claim quantifies over every duplicate-free set
of valid indices, but `remove_elements` is only correct for ascending index
lists: `reversed(indices)` must visit higher indices first.  For the
duplicate-free valid index list `[1, 0]` on `["a", "b", "c"]` it deletes
index 0 first and returns `["b"]`, not the cells outside the set
(`["c"]`). -/
theorem C7_counterexample :
    remove_elements ["a", "b", "c"] [1, 0] = ["b"] ∧
      keepSpec ["a", "b", "c"] [1, 0] = ["c"] ∧
      remove_elements ["a", "b", "c"] [1, 0] ≠ keepSpec ["a", "b", "c"] [1, 0] := by
  decide

/-- C7 (amended): for every cell sequence and every strictly ascending
(hence duplicate-free) list of valid indices — which is what `search` and
`prompt` in fact supply — `remove_elements` returns exactly the cells whose
index is not in the list, in their original relative order.  The Python
function also copies the list before deleting, leaving the caller's
sequence untouched; in this pure embedding that is inherent. -/
theorem C7_amended_remove (target : List String) (indices : List Nat)
    (hsorted : List.Sorted (· < ·) indices)
    (hbound : ∀ i ∈ indices, i < target.length) :
    remove_elements target indices = keepSpec target indices := by
  rw [remove_elements_eq_foldr]
  exact foldr_erase_eq_keepSpec target indices hsorted hbound

/-- C7 witness: the amended theorem applied to `["a", "b", "c"]` with the
ascending index list `[0, 2]`. -/
theorem C7_witness :
    remove_elements ["a", "b", "c"] [0, 2] = keepSpec ["a", "b", "c"] [0, 2] ∧
      keepSpec ["a", "b", "c"] [0, 2] = ["b"] :=
  ⟨C7_amended_remove ["a", "b", "c"] [0, 2] (by decide) (by decide), by decide⟩

theorem cellMatches_eq_any (patterns : List Pattern) (c : String) :
    cellMatches patterns c = patterns.any (fun p => ismatch c p) := by
  induction patterns with
  | nil => rfl
  | cons p rest ih =>
    simp only [cellMatches, List.any_cons, ih]
    by_cases h : ismatch c p
    · simp [h]
    · simp [h]

theorem any_of_perm {l l' : List Pattern} (h : l.Perm l') (p : Pattern → Bool) :
    l.any p = l'.any p := by
  cases hb : l'.any p with
  | false =>
    cases ha : l.any p with
    | false => rfl
    | true =>
      exfalso
      rcases List.any_eq_true.mp ha with ⟨x, hx, hpx⟩
      have : l'.any p = true := List.any_eq_true.mpr ⟨x, h.mem_iff.mp hx, hpx⟩
      rw [hb] at this
      cases this
  | true =>
    rcases List.any_eq_true.mp hb with ⟨x, hx, hpx⟩
    exact List.any_eq_true.mpr ⟨x, h.mem_iff.mpr hx, hpx⟩

theorem searchGo_lower_bound (patterns : List Pattern) (k : Nat) (cells : List String) :
    ∀ i ∈ searchGo patterns k cells, k ≤ i := by
  induction cells generalizing k with
  | nil => simp [searchGo]
  | cons c rest ih =>
    intro i hi
    simp only [searchGo, List.mem_append] at hi
    rcases hi with hi | hi
    · by_cases h : cellMatches patterns c
      · rw [if_pos h] at hi
        simp at hi
        omega
      · rw [if_neg h] at hi
        simp at hi
    · have := ih (k + 1) i hi
      omega

theorem searchGo_sorted (patterns : List Pattern) (k : Nat) (cells : List String) :
    (searchGo patterns k cells).Pairwise (· < ·) := by
  induction cells generalizing k with
  | nil => simp [searchGo]
  | cons c rest ih =>
    simp only [searchGo]
    by_cases h : cellMatches patterns c
    · rw [if_pos h]
      simp only [List.singleton_append, List.pairwise_cons]
      refine ⟨fun i hi => ?_, ih (k + 1)⟩
      have := searchGo_lower_bound patterns (k + 1) rest i hi
      omega
    · rw [if_neg h]
      simpa using ih (k + 1)

theorem searchGo_perm {patterns patterns' : List Pattern}
    (hperm : patterns.Perm patterns') (k : Nat) (cells : List String) :
    searchGo patterns k cells = searchGo patterns' k cells := by
  induction cells generalizing k with
  | nil => rfl
  | cons c rest ih =>
    simp only [searchGo, cellMatches_eq_any, any_of_perm hperm]
    rw [ih (k + 1)]

theorem mem_searchGo (patterns : List Pattern) (k : Nat) (cells : List String) (i : Nat) :
    i ∈ searchGo patterns k cells ↔
      ∃ j, ∃ h : j < cells.length, i = k + j ∧
        cellMatches patterns (cells.get ⟨j, h⟩) = true := by
  induction cells generalizing k with
  | nil => simp [searchGo]
  | cons c rest ih =>
    simp only [searchGo, List.mem_append]
    constructor
    · intro hi
      rcases hi with hi | hi
      · by_cases h : cellMatches patterns c
        · rw [if_pos h] at hi
          simp at hi
          exact ⟨0, by simp, by omega, by simpa using h⟩
        · rw [if_neg h] at hi
          simp at hi
      · rcases (ih (k + 1)).mp hi with ⟨j, hj, hij, hm⟩
        exact ⟨j + 1, by simpa using Nat.succ_lt_succ hj, by omega, by simpa using hm⟩
    · rintro ⟨j, hj, rfl, hm⟩
      cases j with
      | zero =>
        left
        replace hm : cellMatches patterns c = true := hm
        simp [hm]
      | succ j' =>
        right
        have hj' : j' < rest.length := by
          simp only [List.length_cons] at hj
          omega
        refine (ih (k + 1)).mpr ⟨j', hj', by omega, ?_⟩
        simpa using hm

/-- C4: `SrtProject.search` tests the cells in order, each against the
patterns in configured order with a first-match `break`; the result is
strictly ascending and duplicate-free, contains exactly the indices of
cells matched by some pattern, and is unchanged under any reordering
(permutation) of the pattern list. -/
theorem C4_search (cells : List String) (patterns : List Pattern) :
    List.Sorted (· < ·) (search cells patterns) ∧
    (search cells patterns).Nodup ∧
    (∀ i, i ∈ search cells patterns ↔
      ∃ h : i < cells.length, cellMatches patterns (cells.get ⟨i, h⟩) = true) ∧
    (∀ patterns', patterns.Perm patterns' →
      search cells patterns = search cells patterns') := by
  refine ⟨searchGo_sorted patterns 0 cells,
    (searchGo_sorted patterns 0 cells).imp Nat.ne_of_lt, fun i => ?_, ?_⟩
  · rw [search, mem_searchGo]
    constructor
    · rintro ⟨j, hj, rfl, hm⟩
      exact ⟨by simpa using hj, by simpa using hm⟩
    · rintro ⟨h, hm⟩
      exact ⟨i, h, by omega, hm⟩
  · intro patterns' hperm
    exact searchGo_perm hperm 0 cells

/-- C4 witness: the theorem's pattern-order-independence applied to a
concrete two-pattern swap, plus the decided value of the search. -/
theorem C4_witness :
    search ["spam www.", "1\nok"] [.lit "www.", .lit "spam"] =
      search ["spam www.", "1\nok"] [.lit "spam", .lit "www."] ∧
    search ["spam www.", "1\nok"] [.lit "www.", .lit "spam"] = [0] :=
  ⟨(C4_search ["spam www.", "1\nok"] [.lit "www.", .lit "spam"]).2.2.2
      [.lit "spam", .lit "www."]
      (List.Perm.swap (Pattern.lit "spam") (Pattern.lit "www.") ([] : List Pattern)),
    by decide⟩

/-- Was some keystroke among `resp k, …, resp (k+j-1)` an affirmative
(lowercased `y`)?  Those are exactly the reviews that appended a deletion
before position `j`. -/
def anyYBefore (resp : Nat → Char) (k : Nat) : Nat → Bool
  | 0 => false
  | j + 1 => (pyLower (resp k) == 'y') || anyYBefore resp (k + 1) j

theorem anyYBefore_succ (resp : Nat → Char) (k j : Nat) :
    anyYBefore resp k (j + 1) =
      ((pyLower (resp k) == 'y') || anyYBefore resp (k + 1) j) := rfl

theorem anyYBefore_iff (resp : Nat → Char) (j : Nat) : ∀ k,
    anyYBefore resp k j = true ↔ ∃ i < j, pyLower (resp (k + i)) = 'y' := by
  induction j with
  | zero =>
    intro k
    simp [anyYBefore]
  | succ j ih =>
    intro k
    simp only [anyYBefore, Bool.or_eq_true, beq_iff_eq, ih (k + 1)]
    constructor
    · rintro (h | ⟨i, hi, hy⟩)
      · exact ⟨0, by omega, by simpa using h⟩
      · exact ⟨i + 1, by omega, by rwa [show k + (i + 1) = k + 1 + i by omega]⟩
    · rintro ⟨i, hi, hy⟩
      cases i with
      | zero => exact Or.inl (by simpa using hy)
      | succ i' =>
        right
        exact ⟨i', by omega, by rwa [show k + 1 + i' = k + (i' + 1) by omega]⟩

theorem promptGo_abort (modified : Bool) (resp : Nat → Char) (ms : List Nat) :
    ∀ (k : Nat) (acc : List Nat) (j : Nat),
      j < ms.length →
      (∀ i < j, pyLower (resp (k + i)) = 'y' ∨ pyLower (resp (k + i)) = 'n') →
      pyLower (resp (k + j)) ≠ 'y' →
      pyLower (resp (k + j)) ≠ 'n' →
      promptGo modified resp ms k acc =
        .abort (!acc.isEmpty || modified || anyYBefore resp k j) := by
  induction ms with
  | nil =>
    intro k acc j hj _ _ _
    simp at hj
  | cons m rest ih =>
    intro k acc j hj hyn hy hn
    cases j with
    | zero =>
      have hy0 : pyLower (resp k) ≠ 'y' := by simpa using hy
      have hn0 : pyLower (resp k) ≠ 'n' := by simpa using hn
      simp only [promptGo, if_neg hy0, if_neg hn0]
      have h0 : anyYBefore resp k 0 = false := rfl
      rw [h0, Bool.or_false]
    | succ j' =>
      have h0 := hyn 0 (by omega)
      rw [Nat.add_zero] at h0
      have hj' : j' < rest.length := by
        simp only [List.length_cons] at hj
        omega
      have hyn' : ∀ i < j', pyLower (resp (k + 1 + i)) = 'y' ∨
          pyLower (resp (k + 1 + i)) = 'n' := by
        intro i hi
        have := hyn (i + 1) (by omega)
        rwa [show k + (i + 1) = k + 1 + i by omega] at this
      have hy' : pyLower (resp (k + 1 + j')) ≠ 'y' := by
        rwa [show k + 1 + j' = k + (j' + 1) by omega]
      have hn' : pyLower (resp (k + 1 + j')) ≠ 'n' := by
        rwa [show k + 1 + j' = k + (j' + 1) by omega]
      rcases h0 with h0 | h0
      · simp only [promptGo, if_pos h0]
        rw [ih (k + 1) (acc ++ [m]) j' hj' hyn' hy' hn']
        rw [anyYBefore_succ]
        have : (pyLower (resp k) == 'y') = true := by simp [h0]
        simp [this]
      · have h0y : pyLower (resp k) ≠ 'y' ∨ True := Or.inr trivial
        by_cases hyy : pyLower (resp k) = 'y'
        · simp only [promptGo, if_pos hyy]
          rw [ih (k + 1) (acc ++ [m]) j' hj' hyn' hy' hn']
          rw [anyYBefore_succ]
          have : (pyLower (resp k) == 'y') = true := by simp [hyy]
          simp [this]
        · simp only [promptGo, if_neg hyy, if_pos h0]
          rw [ih (k + 1) acc j' hj' hyn' hy' hn']
          rw [anyYBefore_succ]
          have : (pyLower (resp k) == 'y') = false := by simp [hyy]
          simp [this]

/-- C3: in interactive review (no `--yes`), when the first keystroke that is
neither affirmative nor negative (after lowercasing) arrives at review
position `j`, `SrtProject.prompt` exits the program immediately
(`sys.exit(0)`, modeled by `.abort`), returning no deletions to apply or
write; and the "Not saving changes" warning is logged exactly when some
earlier review had answered `y` (a deletion was accumulated) or the file was
already flagged modified by normalization. -/
theorem C3_abort_discards (modified : Bool) (resp : Nat → Char)
    (matched : List Nat) (j : Nat)
    (h1 : j < matched.length)
    (h2 : ∀ i < j, pyLower (resp i) = 'y' ∨ pyLower (resp i) = 'n')
    (h3 : pyLower (resp j) ≠ 'y')
    (h4 : pyLower (resp j) ≠ 'n') :
    prompt false modified resp matched = .abort (modified || anyYBefore resp 0 j) ∧
      ((modified || anyYBefore resp 0 j) = true ↔
        modified = true ∨ ∃ i < j, pyLower (resp i) = 'y') := by
  constructor
  · rw [prompt, if_neg (by simp)]
    rw [promptGo_abort modified resp matched 0 [] j h1
      (by simpa using h2) (by simpa using h3) (by simpa using h4)]
    simp
  · rw [Bool.or_eq_true, anyYBefore_iff resp j 0]
    simp only [Nat.zero_add]

/-- C3 witness: two matches, the user answers `Y` (affirmative after
lowercasing) then `q`: the program aborts and the warning is emitted
because a deletion was pending. -/
def respYQ : Nat → Char := fun i => if i = 0 then 'Y' else 'q'

theorem startsWithSeq_iff (sep : List Char) : ∀ s : List Char,
    startsWithSeq sep s = true ↔ ∃ rest, s = sep ++ rest := by
  induction sep with
  | nil =>
    intro s
    simp [startsWithSeq]
  | cons a as ih =>
    intro s
    cases s with
    | nil =>
      simp only [startsWithSeq]
      constructor
      · intro h
        cases h
      · rintro ⟨rest, h⟩
        cases h
    | cons b bs =>
      simp only [startsWithSeq, Bool.and_eq_true, beq_iff_eq, ih bs]
      constructor
      · rintro ⟨rfl, rest, rfl⟩
        exact ⟨rest, rfl⟩
      · rintro ⟨rest, h⟩
        rw [List.cons_append] at h
        injection h with h1 h2
        exact ⟨h1.symm, rest, h2⟩

theorem containsSeq_iff (sep : List Char) : ∀ s : List Char,
    containsSeq sep s = true ↔ ∃ pre post, s = pre ++ sep ++ post := by
  intro s
  induction s with
  | nil =>
    simp only [containsSeq, List.isEmpty_iff]
    constructor
    · rintro rfl
      exact ⟨[], [], rfl⟩
    · rintro ⟨pre, post, h⟩
      have h2 := List.append_eq_nil.mp h.symm
      exact (List.append_eq_nil.mp h2.1).2
  | cons c rest ih =>
    simp only [containsSeq, Bool.or_eq_true, startsWithSeq_iff, ih]
    constructor
    · rintro (⟨tail, h⟩ | ⟨pre, post, h⟩)
      · exact ⟨[], tail, by simp [h]⟩
      · exact ⟨c :: pre, post, by simp [h]⟩
    · rintro ⟨pre, post, h⟩
      cases pre with
      | nil =>
        left
        exact ⟨post, by simpa using h⟩
      | cons p pre' =>
        right
        rw [List.cons_append, List.cons_append] at h
        injection h with h1 h2
        exact ⟨pre', post, h2⟩

/-- C5: `SrtProject.split` prefers the delimiter `"\n\n"` whenever it occurs
anywhere in the text (the `re.search` patterns contain no metacharacters, so
they are plain substring tests), otherwise uses `"\r\n\r\n"` when that
occurs, and otherwise is fatal for the file (`sys.exit(1)`, modeled by
`none`); on the fatal path `SrtProject.__init__` stops before search,
prompt, deletion, or save, so no partial processing happens. -/
theorem C5_split (text : String) :
    ((∃ pre post, text.toList = pre ++ "\n\n".toList ++ post) →
      splitText text = some ((splitNN [] text.toList).map String.mk)) ∧
    (¬ (∃ pre post, text.toList = pre ++ "\n\n".toList ++ post) →
      (∃ pre post, text.toList = pre ++ "\r\n\r\n".toList ++ post) →
      splitText text = some ((splitRNRN [] text.toList).map String.mk)) ∧
    (splitText text = none ↔
      ¬ (∃ pre post, text.toList = pre ++ "\n\n".toList ++ post) ∧
      ¬ (∃ pre post, text.toList = pre ++ "\r\n\r\n".toList ++ post)) ∧
    (∀ charfixes patterns autoyes resp,
      splitText (if List.isEmpty charfixes then text else pyTranslate charfixes text) =
          none →
      SrtProject.run charfixes patterns autoyes resp text = .formatError) := by
  refine ⟨fun h => ?_, fun h1 h2 => ?_, ?_, fun charfixes patterns autoyes resp h => ?_⟩
  · rw [splitText, if_pos ((containsSeq_iff _ _).mpr h)]
  · rw [splitText, if_neg (fun hc => h1 ((containsSeq_iff _ _).mp hc)),
      if_pos ((containsSeq_iff _ _).mpr h2)]
  · rw [splitText]
    by_cases hnn : containsSeq "\n\n".toList text.toList
    · rw [if_pos hnn]
      simp only [Option.some_ne_none, false_iff]
      intro hc
      exact hc.1 ((containsSeq_iff _ _).mp hnn)
    · rw [if_neg hnn]
      by_cases hrn : containsSeq "\r\n\r\n".toList text.toList
      · rw [if_pos hrn]
        simp only [Option.some_ne_none, false_iff]
        intro hc
        exact hc.2 ((containsSeq_iff _ _).mp hrn)
      · rw [if_neg hrn]
        simp only [true_iff]
        constructor
        · intro hc
          exact hnn ((containsSeq_iff _ _).mpr hc)
        · intro hc
          exact hrn ((containsSeq_iff _ _).mpr hc)
  · rw [SrtProject.run]
    simp only at h ⊢
    rw [h]

/-- C5 witness: a text with no `"\n\n"` but with `"\r\n\r\n"` is split on
the latter. -/
theorem C5_witness : splitText "a\r\n\r\nb" = some ["a", "b"] := by
  have hno : ¬ (∃ pre post, ("a\r\n\r\nb" : String).toList =
      pre ++ "\n\n".toList ++ post) := by
    intro hex
    have hc := (containsSeq_iff "\n\n".toList ("a\r\n\r\nb" : String).toList).mpr hex
    revert hc
    decide
  have h := (C5_split "a\r\n\r\nb").2.1 hno
    ⟨"a".toList, "b".toList, by decide⟩
  rw [h]
  rfl

/-- A codec oracle for the C2 counterexample: bytes that strict UTF-8
decoding rejects and for which `chardet.detect` yields no encoding at all
(its documented result `{'encoding': None, …}` on input it cannot
classify, e.g. short non-textual binary).  Then `get_encoding` returns
`None` and `binary.decode(None)` raises `TypeError`, which only the bare
`except:` catches — `open_error` exits the program. -/
def detectNoneCodec : PyCodec :=
  ⟨fun _ => none, fun _ _ => .ok "", fun _ => "", fun _ => none⟩

/-- C2: counterexample.  The claim says a decode failure is never fatal and
the decoder always returns text; but when detection yields no encoding
name (`None`), `SrtProject.open` exits fatally rather than falling back to
the lossy decode — only a `LookupError` (unsupported encoding *name*)
triggers the fallback. -/
theorem C2_counterexample :
    SrtProject.open detectNoneCodec [255] = .fatal := rfl

/-- C2 (amended): if strict UTF-8 decoding fails, the bytes are decoded
with the detected encoding, and an unsupported detected encoding name
(`LookupError`) falls back to decoding with invalid bytes discarded; but
the decode step is not always recoverable: it is fatal exactly when strict
decoding fails and either detection yields no encoding or decoding with
the detected encoding fails with a `UnicodeDecodeError`. -/
theorem C2_amended_decode (pc : PyCodec) (binary : List Nat) :
    (SrtProject.open pc binary = .fatal ↔
      pc.utf8Strict binary = none ∧
        (get_encoding pc binary = none ∨
          ∃ e, get_encoding pc binary = some e ∧
            pc.decodeAs e binary = .unicodeError)) ∧
    (∀ e, pc.utf8Strict binary = none → get_encoding pc binary = some e →
      pc.decodeAs e binary = .lookupError →
        SrtProject.open pc binary = .text (pc.utf8Ignore binary)) := by
  constructor
  · rw [SrtProject.open]
    cases hs : pc.utf8Strict binary with
    | some s => simp
    | none =>
      cases he : get_encoding pc binary with
      | none => simp
      | some e =>
        cases hd : pc.decodeAs e binary with
        | ok s => simp [hd]
        | lookupError => simp [hd]
        | unicodeError => simp [hd]
  · intro e hs he hd
    rw [SrtProject.open, hs, he]
    simp [hd]

/-- C2 witness: an unsupported detected encoding name leads to the lossy
fallback, not to an exit. -/
def unknownNameCodec : PyCodec :=
  ⟨fun _ => none, fun _ _ => .lookupError, fun _ => "fallback", fun _ => some "x-no-such-codec"⟩

theorem C2_witness :
    SrtProject.open unknownNameCodec [255] = .text "fallback" :=
  (C2_amended_decode unknownNameCodec [255]).2 "x-no-such-codec" rfl (by decide) rfl

/-- C6: counterexample.  The claim says the file is rewritten if and only
if the modified flag is true; but when every surviving cell has fewer than
two lines the save step raises before writing: deleting the matched cell
`"hello"` leaves `["bye"]`, renumbering drops it, and `save` fails — the
run ends modified yet nothing is written. -/
theorem C6_counterexample :
    SrtProject.run [('¶', '♪')] [.lit "hello"] true (fun _ => 'y') "hello\n\nbye" =
      .done ⟨none, true, false, [0], true⟩ := by decide

/-- C6 (amended): for a completed run (no format error, no interactive
abort), the modified flag is true exactly when character normalization
changed the text or at least one cell was deleted; the file content is
written only if the flag is true (an unmodified file is never touched, in
particular when no pattern matches and normalization changes nothing); and
when the flag is true the rewrite is attempted but can still fail (nothing
written) if the renumbered cell list is empty. -/
theorem C6_amended_modified (charfixes : List (Char × Char))
    (patterns : List Pattern) (autoyes : Bool) (resp : Nat → Char)
    (text0 : String) (d : RunDone)
    (h : SrtProject.run charfixes patterns autoyes resp text0 = .done d) :
    d.modified = (d.fixChanged || !d.deleted.isEmpty) ∧
    (d.written.isSome → d.modified = true) ∧
    (d.modified = false → d.written = none) := by
  rw [SrtProject.run] at h
  simp only at h
  split at h
  · exact absurd h (by simp)
  · split at h
    · injection h with h'
      subst h'
      refine ⟨by simp, ?_, ?_⟩
      · intro hw
        by_cases hf : (!List.isEmpty charfixes &&
            (if List.isEmpty charfixes then text0 else pyTranslate charfixes text0) != text0)
        · exact hf
        · rw [Bool.not_eq_true] at hf
          rw [hf] at hw
          simp at hw
      · intro hm
        simp only at hm
        rw [hm]
        simp
    · split at h
      · exact absurd h (by simp)
      · split at h
        · injection h with h'
          subst h'
          refine ⟨by simp, ?_, ?_⟩
          · intro hw
            by_cases hf : (!List.isEmpty charfixes &&
                (if List.isEmpty charfixes then text0 else pyTranslate charfixes text0) != text0)
            · exact hf
            · rw [Bool.not_eq_true] at hf
              rw [hf] at hw
              simp at hw
          · intro hm
            simp only at hm
            rw [hm]
            simp
        · injection h with h'
          subst h'
          rename_i cells hmatched ds hprompt hds
          refine ⟨by simp [hds], fun _ => rfl, fun hm => ?_⟩
          simp at hm

theorem C3_witness : prompt false false respYQ [3, 7] = .abort true := by
  have h := (C3_abort_discards false respYQ [3, 7] 1 (by decide)
      (by
        intro i hi
        have hi0 : i = 0 := by omega
        subst hi0
        left
        decide)
      (by decide) (by decide)).1
  rw [h]
  have : (false || anyYBefore respYQ 0 1) = true := by decide
  rw [this]

/-- C6 witness: a run with no match and no normalization change writes
nothing, and the amended theorem's flag equation holds on it. -/
theorem C6_witness :
    SrtProject.run [('¶', '♪')] [.lit "zzz"] false (fun _ => 'q') "a\nb\n\nc\nd" =
      .done ⟨none, false, false, [], false⟩ ∧
    (false : Bool) = (false || !(List.isEmpty ([] : List Nat))) := by
  refine ⟨by decide, ?_⟩
  have h := (C6_amended_modified [('¶', '♪')] [.lit "zzz"] false (fun _ => 'q')
      "a\nb\n\nc\nd" ⟨none, false, false, [], false⟩ (by decide)).1
  exact h

theorem startsWithSeq_nn_cons (c : Char) (t : List Char) (hc : c ≠ '\n') :
    startsWithSeq ['\n', '\n'] (c :: t) = false := by
  simp only [startsWithSeq, Bool.and_eq_false_iff]
  left
  simp [Ne.symm hc]

theorem containsSeq_nn_append (x r : List Char) (hx : '\n' ∉ x)
    (hr : containsSeq ['\n', '\n'] r = false) :
    containsSeq ['\n', '\n'] (x ++ r) = false := by
  induction x with
  | nil => simpa using hr
  | cons c x' ih =>
    have hc : c ≠ '\n' := fun hceq => hx (hceq ▸ List.mem_cons_self c x')
    have hx' : '\n' ∉ x' := fun hm => hx (List.mem_cons_of_mem _ hm)
    simp only [List.cons_append, containsSeq, Bool.or_eq_false_iff]
    exact ⟨startsWithSeq_nn_cons c _ hc, ih hx'⟩

theorem containsSeq_nn_of_no_nl (s : List Char) (h : '\n' ∉ s) :
    containsSeq ['\n', '\n'] s = false := by
  have := containsSeq_nn_append s [] h rfl
  simpa using this

theorem containsSeq_nn_cons_nl (j : List Char)
    (hj : containsSeq ['\n', '\n'] j = false) (hh : j.head? ≠ some '\n') :
    containsSeq ['\n', '\n'] ('\n' :: j) = false := by
  cases j with
  | nil => rfl
  | cons b bs =>
    have hb : b ≠ '\n' := fun hbe => hh (by simp [hbe])
    rw [containsSeq.eq_2, Bool.or_eq_false_iff]
    refine ⟨?_, hj⟩
    simp [startsWithSeq, Ne.symm hb]

theorem joinChars_nl_head (y : List Char) (xs : List (List Char)) (hy : y ≠ []) :
    (joinChars ['\n'] (y :: xs)).head? = y.head? := by
  cases xs with
  | nil => rfl
  | cons z zs =>
    simp only [joinChars]
    cases y with
    | nil => exact absurd rfl hy
    | cons a as => simp

theorem joined_no_nn (lines : List (List Char))
    (h : ∀ l ∈ lines, l ≠ [] ∧ ∀ c ∈ l, isLineBreakChar c = false) :
    containsSeq ['\n', '\n'] (joinChars ['\n'] lines) = false := by
  induction lines with
  | nil => rfl
  | cons x xs ih =>
    have hx : '\n' ∉ x := by
      intro hm
      have := (h x (by simp)).2 '\n' hm
      simp [isLineBreakChar] at this
    cases xs with
    | nil =>
      exact containsSeq_nn_of_no_nl x hx
    | cons y ys =>
      have hy : y ≠ [] := (h y (by simp)).1
      have hyhead : (joinChars ['\n'] (y :: ys)).head? ≠ some '\n' := by
        rw [joinChars_nl_head y ys hy]
        cases y with
        | nil => exact absurd rfl hy
        | cons a as =>
          have := (h (a :: as) (by simp)).2 a (by simp)
          intro hc
          simp only [List.head?_cons, Option.some_inj] at hc
          rw [hc] at this
          simp [isLineBreakChar] at this
      have hrec := ih (fun l hl => h l (List.mem_cons_of_mem _ hl))
      have : joinChars ['\n'] (x :: y :: ys) = x ++ ('\n' :: joinChars ['\n'] (y :: ys)) := by
        simp [joinChars]
      rw [this]
      exact containsSeq_nn_append x _ hx (containsSeq_nn_cons_nl _ hrec hyhead)

theorem joinChars_nl_ne_nil (lines : List (List Char)) (hne : lines ≠ [])
    (h : ∀ l ∈ lines, l ≠ []) : joinChars ['\n'] lines ≠ [] := by
  cases lines with
  | nil => exact absurd rfl hne
  | cons x xs =>
    cases xs with
    | nil => exact h x (by simp)
    | cons y ys =>
      simp only [joinChars]
      intro hc
      rcases List.append_eq_nil.mp hc with ⟨h1, -⟩
      rcases List.append_eq_nil.mp h1 with ⟨-, h2⟩
      cases h2

theorem getLast?_cons_of_ne (a : Char) (l : List Char) (h : l ≠ []) :
    (a :: l).getLast? = l.getLast? := by
  cases l with
  | nil => exact absurd rfl h
  | cons b t => rfl

theorem joined_getLast_ne_nl (lines : List (List Char)) (hne : lines ≠ [])
    (h : ∀ l ∈ lines, l ≠ [] ∧ ∀ c ∈ l, isLineBreakChar c = false) :
    (joinChars ['\n'] lines).getLast? ≠ some '\n' := by
  induction lines with
  | nil => exact absurd rfl hne
  | cons x xs ih =>
    cases xs with
    | nil =>
      simp only [joinChars]
      intro hc
      have hmem : '\n' ∈ x := by
        rcases List.mem_getLast?_eq_getLast (show '\n' ∈ x.getLast? from hc) with ⟨hx, heq⟩
        rw [heq]
        exact List.getLast_mem hx
      have := (h x (by simp)).2 '\n' hmem
      simp [isLineBreakChar] at this
    | cons y ys =>
      have hj : joinChars ['\n'] (y :: ys) ≠ [] :=
        joinChars_nl_ne_nil (y :: ys) (by simp)
          (fun l hl => (h l (List.mem_cons_of_mem _ hl)).1)
      have heq : joinChars ['\n'] (x :: y :: ys) =
          x ++ ('\n' :: joinChars ['\n'] (y :: ys)) := by
        simp [joinChars]
      rw [heq, List.getLast?_append_of_ne_nil x (by simp),
        getLast?_cons_of_ne '\n' _ hj]
      exact ih (by simp) (fun l hl => h l (List.mem_cons_of_mem _ hl))

theorem splitNN_no_sep (s : List Char) :
    ∀ acc, containsSeq ['\n', '\n'] s = false →
      splitNN acc s = [acc.reverse ++ s] := by
  induction s with
  | nil =>
    intro acc _
    simp [splitNN]
  | cons c s' ih =>
    intro acc h
    rw [containsSeq.eq_2, Bool.or_eq_false_iff] at h
    cases s' with
    | nil => simp [splitNN]
    | cons d s'' =>
      have hcd : ¬ ((c = '\n' : Bool) && (d = '\n' : Bool)) = true := by
        intro hc
        simp only [Bool.and_eq_true, decide_eq_true_eq] at hc
        have := h.1
        rw [hc.1, hc.2] at this
        simp [startsWithSeq] at this
      rw [splitNN.eq_3, if_neg hcd, ih (c :: acc) h.2]
      simp

theorem splitNN_chunk (c1 : List Char) :
    ∀ acc rest, containsSeq ['\n', '\n'] c1 = false →
      c1.getLast? ≠ some '\n' →
      splitNN acc (c1 ++ '\n' :: '\n' :: rest) =
        (acc.reverse ++ c1) :: splitNN [] rest := by
  induction c1 with
  | nil =>
    intro acc rest _ _
    simp [splitNN]
  | cons c c1' ih =>
    intro acc rest h1 h2
    rw [containsSeq.eq_2, Bool.or_eq_false_iff] at h1
    cases c1' with
    | nil =>
      have hc : c ≠ '\n' := by
        intro hceq
        exact h2 (by simp [hceq])
      have hcd : ¬ ((c = '\n' : Bool) && ('\n' = '\n' : Bool)) = true := by
        simp [hc]
      have e1 : [c] ++ '\n' :: '\n' :: rest = c :: '\n' :: '\n' :: rest := rfl
      rw [e1, splitNN.eq_3, if_neg hcd, splitNN.eq_3, if_pos (by simp)]
      simp
    | cons d c1'' =>
      have hcd : ¬ ((c = '\n' : Bool) && (d = '\n' : Bool)) = true := by
        intro hc
        simp only [Bool.and_eq_true, decide_eq_true_eq] at hc
        have := h1.1
        rw [hc.1, hc.2] at this
        simp [startsWithSeq] at this
      have h2' : (d :: c1'').getLast? ≠ some '\n' := by
        rwa [getLast?_cons_of_ne c (d :: c1'') (by simp)] at h2
      have e1 : (c :: d :: c1'') ++ '\n' :: '\n' :: rest =
          c :: d :: (c1'' ++ '\n' :: '\n' :: rest) := rfl
      have ih' := ih (c :: acc) rest h1.2 h2'
      rw [List.cons_append] at ih'
      rw [e1, splitNN.eq_3, if_neg hcd, ih']
      simp

theorem splitNN_join (parts : List (List Char))
    (h : ∀ p ∈ parts, containsSeq ['\n', '\n'] p = false ∧ p.getLast? ≠ some '\n')
    (hne : parts ≠ []) :
    splitNN [] (joinChars ['\n', '\n'] parts) = parts := by
  induction parts with
  | nil => exact absurd rfl hne
  | cons x xs ih =>
    cases xs with
    | nil =>
      simp only [joinChars]
      rw [splitNN_no_sep x [] (h x (by simp)).1]
      simp
    | cons y ys =>
      have heq : joinChars ['\n', '\n'] (x :: y :: ys) =
          x ++ '\n' :: '\n' :: joinChars ['\n', '\n'] (y :: ys) := by
        simp [joinChars]
      rw [heq, splitNN_chunk x [] _ (h x (by simp)).1 (h x (by simp)).2]
      rw [ih (fun p hp => h p (List.mem_cons_of_mem _ hp)) (by simp)]
      simp

theorem splitlinesGo_nonbreak (l : List Char) :
    ∀ acc, (∀ c ∈ l, isLineBreakChar c = false) →
      splitlinesGo acc l =
        if (acc.reverse ++ l).isEmpty then [] else [String.mk (acc.reverse ++ l)] := by
  induction l with
  | nil =>
    intro acc _
    simp [splitlinesGo, List.isEmpty_iff]
  | cons c l' ih =>
    intro acc h
    have hc : isLineBreakChar c = false := h c (by simp)
    cases l' with
    | nil =>
      rw [splitlinesGo.eq_2, if_neg (by simp [hc])]
      simp [List.isEmpty_iff]
    | cons d l'' =>
      have hcr : c ≠ '\r' := by
        intro hceq
        rw [hceq] at hc
        simp [isLineBreakChar] at hc
      rw [splitlinesGo.eq_3, if_neg (by simp [hcr]), if_neg (by simp [hc])]
      rw [ih (c :: acc) (fun a ha => h a (List.mem_cons_of_mem _ ha))]
      simp

theorem splitlinesGo_append_nl (l : List Char) :
    ∀ acc rest, (∀ c ∈ l, isLineBreakChar c = false) →
      splitlinesGo acc (l ++ '\n' :: rest) =
        String.mk (acc.reverse ++ l) :: splitlinesGo [] rest := by
  induction l with
  | nil =>
    intro acc rest _
    cases rest with
    | nil =>
      rw [show ([] : List Char) ++ '\n' :: ([] : List Char) = ['\n'] from rfl]
      rw [splitlinesGo.eq_2, if_pos (by decide)]
      simp [splitlinesGo]
    | cons d rest' =>
      rw [List.nil_append, splitlinesGo.eq_3, if_neg (by simp), if_pos (by decide)]
      simp
  | cons c l' ih =>
    intro acc rest h
    have hc : isLineBreakChar c = false := h c (by simp)
    have hcr : c ≠ '\r' := by
      intro hceq
      rw [hceq] at hc
      simp [isLineBreakChar] at hc
    have hstep : splitlinesGo acc ((c :: l') ++ '\n' :: rest) =
        splitlinesGo (c :: acc) (l' ++ '\n' :: rest) := by
      cases l' with
      | nil =>
        rw [List.cons_append, List.nil_append, splitlinesGo.eq_3,
          if_neg (by simp [hcr]), if_neg (by simp [hc])]
      | cons e l'' =>
        rw [List.cons_append, List.cons_append, splitlinesGo.eq_3,
          if_neg (by simp [hcr]), if_neg (by simp [hc])]
    rw [hstep, ih (c :: acc) rest (fun a ha => h a (List.mem_cons_of_mem _ ha))]
    simp

theorem splitlinesGo_join (lines : List (List Char)) :
    (∀ l ∈ lines, l ≠ [] ∧ ∀ c ∈ l, isLineBreakChar c = false) → lines ≠ [] →
      splitlinesGo [] (joinChars ['\n'] lines) = lines.map String.mk := by
  induction lines with
  | nil =>
    intro _ hne
    exact absurd rfl hne
  | cons x xs ih =>
    intro h _
    cases xs with
    | nil =>
      have hx := h x (by simp)
      rw [show joinChars ['\n'] [x] = x from rfl]
      rw [splitlinesGo_nonbreak x [] hx.2]
      rw [if_neg (by simpa using hx.1)]
      simp
    | cons y ys =>
      have heq : joinChars ['\n'] (x :: y :: ys) =
          x ++ '\n' :: joinChars ['\n'] (y :: ys) := by
        simp [joinChars]
      rw [heq, splitlinesGo_append_nl x [] _ (h x (by simp)).2]
      rw [ih (fun l hl => h l (List.mem_cons_of_mem _ hl)) (by simp)]
      simp

/-- A nonempty line containing no line-break characters. -/
def lineOk (l : String) : Bool :=
  !l.toList.isEmpty && l.toList.all (fun c => !isLineBreakChar c)

/-- A well-formed cell given as its list of lines: at least two lines, all
of them nonempty and break-free. -/
def cellOk (c : List String) : Bool := decide (2 ≤ c.length) && c.all lineOk

/-- The cells' first lines are the decimal numbers `n`, `n+1`, … in order. -/
def headsNumberedFrom (n : Nat) : List (List String) → Bool
  | [] => true
  | c :: rest =>
    (c.head? == some (String.mk (natToChars n))) && headsNumberedFrom (n + 1) rest

/-- The full document text of a list of cells given as lines: lines joined
by `"\n"`, cells joined by `"\n\n"`. -/
def docText (cellsL : List (List String)) : String :=
  pyJoin "\n\n" (cellsL.map (pyJoin "\n"))

theorem lineOk_char (l : String) (h : lineOk l = true) :
    l.toList ≠ [] ∧ ∀ c ∈ l.toList, isLineBreakChar c = false := by
  simp only [lineOk, Bool.and_eq_true, List.all_eq_true, Bool.not_eq_true'] at h
  constructor
  · intro hc
    rw [hc] at h
    simp at h
  · exact h.2

theorem pySplitlines_pyJoin (c : List String)
    (h : ∀ l ∈ c, lineOk l = true) (hne : c ≠ []) :
    pySplitlines (pyJoin "\n" c) = c := by
  have hchar : ∀ l ∈ c.map String.toList,
      l ≠ [] ∧ ∀ ch ∈ l, isLineBreakChar ch = false := by
    intro l hl
    rcases List.mem_map.mp hl with ⟨s, hs, rfl⟩
    exact lineOk_char s (h s hs)
  have hb := splitlinesGo_join (c.map String.toList) hchar (by simpa using hne)
  have e : pySplitlines (pyJoin "\n" c) =
      splitlinesGo [] (joinChars ['\n'] (c.map String.toList)) := rfl
  rw [e, hb, List.map_map]
  rw [show (String.mk ∘ String.toList) = id from funext fun s => rfl, List.map_id]

theorem cellOk_parts (c : List String) (h : cellOk c = true) :
    2 ≤ c.length ∧ ∀ l ∈ c, lineOk l = true := by
  simp only [cellOk, Bool.and_eq_true, decide_eq_true_eq, List.all_eq_true] at h
  exact h

theorem renumberGo_fixed (cellsL : List (List String)) : ∀ num,
    (∀ c ∈ cellsL, cellOk c = true) →
    headsNumberedFrom (num + 1) cellsL = true →
    renumberGo num (cellsL.map (pyJoin "\n")) = cellsL.map (pyJoin "\n") := by
  induction cellsL with
  | nil =>
    intro num _ _
    rfl
  | cons c rest ih =>
    intro num hok hnum
    have hc := cellOk_parts c (hok c (by simp))
    have hcne : c ≠ [] := by
      intro hn
      rw [hn] at hc
      simp at hc
    have hsplit : pySplitlines (pyJoin "\n" c) = c :=
      pySplitlines_pyJoin c hc.2 hcne
    simp only [List.map_cons, renumberGo, hsplit]
    rw [if_pos hc.1]
    simp only [headsNumberedFrom, Bool.and_eq_true, beq_iff_eq] at hnum
    obtain ⟨hd, tl, rfl⟩ : ∃ hd tl, c = hd :: tl := by
      cases c with
      | nil => exact absurd rfl hcne
      | cons hd tl => exact ⟨hd, tl, rfl⟩
    have hhd : hd = String.mk (natToChars (num + 1)) := by
      simpa using hnum.1
    rw [ih (num + 1) (fun c' hc' => hok c' (List.mem_cons_of_mem _ hc')) hnum.2]
    rw [List.tail_cons, ← hhd]

theorem joinChars_last_append (sep : List Char) (xs : List (List Char))
    (x suffix : List Char) :
    joinChars sep (xs ++ [x ++ suffix]) = joinChars sep (xs ++ [x]) ++ suffix := by
  induction xs with
  | nil => rfl
  | cons a xs' ih =>
    cases xs' with
    | nil => simp [joinChars, List.append_assoc]
    | cons b xs'' =>
      have ih' := ih
      simp only [List.cons_append] at ih' ⊢
      rw [joinChars.eq_3, joinChars.eq_3, ih']
      simp [List.append_assoc]

theorem toList_append (s t : String) : (s ++ t).toList = s.toList ++ t.toList := rfl

theorem pyJoin_last_append (sep : String) (xs : List String) (x : String) :
    pyJoin sep (xs ++ [x ++ "\n"]) = pyJoin sep (xs ++ [x]) ++ "\n" := by
  have e1 : (xs ++ [x ++ "\n"]).map String.toList =
      xs.map String.toList ++ [x.toList ++ ['\n']] := by
    rw [List.map_append]
    rfl
  have e2 : (xs ++ [x]).map String.toList = xs.map String.toList ++ [x.toList] := by
    rw [List.map_append]
    rfl
  simp only [pyJoin, e1, e2, joinChars_last_append]
  rfl

/-- C8: counterexample.  The claim quantifies over every text containing a
`"\n\n"`; serializing the split of `"1\nHi\n\nlost"` drops the single-line
cell `"lost"` entirely, so the original cell contents are not
reproduced. -/
theorem C8_counterexample :
    splitText "1\nHi\n\nlost" = some ["1\nHi", "lost"] ∧
      saveText ["1\nHi", "lost"] = some "1\nHi\n" ∧
      containsSeq "lost".toList "1\nHi\n".toList = false := by decide

/-- C8 (amended): for every document of at least two cells, each consisting
of at least two nonempty lines free of line-break characters, and numbered
`1, 2, …` in order, splitting the document text yields exactly the original
cells, and renumber-and-serialize reproduces the document text verbatim
with its guaranteed single trailing newline (renumbering leaves the already
correct numbers unchanged).  The hypotheses exclude exactly the cases the
counterexamples for C1/C8/C10 exhibit: single-line cells are dropped and
non-LF line endings are rewritten. -/
theorem C8_amended_roundtrip (cellsL : List (List String))
    (hlen : 2 ≤ cellsL.length)
    (hok : ∀ c ∈ cellsL, cellOk c = true)
    (hnum : headsNumberedFrom 1 cellsL = true) :
    splitText (docText cellsL) = some (cellsL.map (pyJoin "\n")) ∧
    saveText (cellsL.map (pyJoin "\n")) = some (docText cellsL ++ "\n") := by
  have hlines : ∀ c ∈ cellsL, ∀ l ∈ c.map String.toList,
      l ≠ [] ∧ ∀ ch ∈ l, isLineBreakChar ch = false := by
    intro c hc l hl
    rcases List.mem_map.mp hl with ⟨s, hs, rfl⟩
    exact lineOk_char s ((cellOk_parts c (hok c hc)).2 s hs)
  have hlne : ∀ c ∈ cellsL, c.map String.toList ≠ [] := by
    intro c hc
    have := (cellOk_parts c (hok c hc)).1
    intro hn
    rw [List.map_eq_nil_iff] at hn
    rw [hn] at this
    simp at this
  have hchunk : ∀ c ∈ cellsL, (pyJoin "\n" c).toList =
      joinChars ['\n'] (c.map String.toList) := fun _ _ => rfl
  have hgood : ∀ c ∈ cellsL,
      containsSeq ['\n', '\n'] ((pyJoin "\n" c).toList) = false ∧
        ((pyJoin "\n" c).toList).getLast? ≠ some '\n' := by
    intro c hc
    rw [hchunk c hc]
    exact ⟨joined_no_nn _ (hlines c hc),
      joined_getLast_ne_nl _ (hlne c hc) (hlines c hc)⟩
  have hdoc : (docText cellsL).toList =
      joinChars ['\n', '\n'] (cellsL.map (fun c => (pyJoin "\n" c).toList)) := by
    simp only [docText, pyJoin, List.map_map]
    rfl
  obtain ⟨c1, c2, rest, rfl⟩ : ∃ c1 c2 rest, cellsL = c1 :: c2 :: rest := by
    cases cellsL with
    | nil => simp at hlen
    | cons c1 t =>
      cases t with
      | nil => simp at hlen
      | cons c2 rest => exact ⟨c1, c2, rest, rfl⟩
  have hsplitnn : splitNN [] ((docText (c1 :: c2 :: rest)).toList) =
      (c1 :: c2 :: rest).map (fun c => (pyJoin "\n" c).toList) := by
    rw [hdoc]
    refine splitNN_join _ ?_ (by simp)
    intro p hp
    rcases List.mem_map.mp hp with ⟨c, hc, rfl⟩
    exact hgood c hc
  have hcontains : containsSeq "\n\n".toList ((docText (c1 :: c2 :: rest)).toList) = true := by
    rw [hdoc]
    refine (containsSeq_iff _ _).mpr ?_
    refine ⟨(pyJoin "\n" c1).toList,
      joinChars ['\n', '\n'] ((c2 :: rest).map (fun c => (pyJoin "\n" c).toList)), ?_⟩
    simp [joinChars]
  constructor
  · rw [splitText, if_pos hcontains, hsplitnn]
    congr 1
    rw [List.map_map]
    rfl
  · have hren : renumberList ((c1 :: c2 :: rest).map (pyJoin "\n")) =
        (c1 :: c2 :: rest).map (pyJoin "\n") :=
      renumberGo_fixed (c1 :: c2 :: rest) 0 hok hnum
    have hne : (c1 :: c2 :: rest).map (pyJoin "\n") ≠ [] := by simp
    rcases hgl : ((c1 :: c2 :: rest).map (pyJoin "\n")).getLast? with _ | last
    · rw [List.getLast?_eq_none_iff] at hgl
      exact absurd hgl hne
    · have hlast_mem : last ∈ (c1 :: c2 :: rest).map (pyJoin "\n") := by
        rcases List.mem_getLast?_eq_getLast (show last ∈ _ from hgl) with ⟨hx, heq⟩
        rw [heq]
        exact List.getLast_mem hx
      rcases List.mem_map.mp hlast_mem with ⟨c, hc, rfl⟩
      have hend : pyEndsWithNL (pyJoin "\n" c) = false := by
        simp only [pyEndsWithNL, beq_eq_false_iff_ne, ne_eq]
        exact (hgood c hc).2
      rw [saveText]
      simp only [hren, hgl, hend, Bool.false_eq_true, if_false]
      rw [pyJoin_last_append]
      rw [List.dropLast_append_getLast? _ (show pyJoin "\n" c ∈ _ from hgl)]
      rfl

/-- C8 witness: the amended theorem applied to a concrete two-cell,
correctly numbered, LF-only document. -/
theorem C8_witness :
    saveText ["1\na\nb", "2\nc\nd"] = some "1\na\nb\n\n2\nc\nd\n" := by
  have h := (C8_amended_roundtrip [["1", "a", "b"], ["2", "c", "d"]]
      (by decide) (by decide) (by decide)).2
  have e1 : ([["1", "a", "b"], ["2", "c", "d"]].map (pyJoin "\n")) =
      ["1\na\nb", "2\nc\nd"] := by decide
  have e2 : docText [["1", "a", "b"], ["2", "c", "d"]] ++ "\n" =
      "1\na\nb\n\n2\nc\nd\n" := by decide
  rw [e1, e2] at h
  exact h

end Subnuker
